import Mathlib

set_option autoImplicit false

/-!
Shallow embedding of the `redundant_clone` lint
(`src/clippy_lints/src/redundant_clone.rs`).

The lint walks the MIR control-flow graph of one function body.  For each
basic block whose terminator is a call `y = func(move x: &T)` with `T` not
trivially copyable (`is_call_with_ref_arg`), it classifies the callee into
the from-borrow family (`Clone::clone`, `ToOwned::to_owned`,
`ToString::to_string` on `String`) or the from-dereference family
(`Path::to_path_buf`, `OsStr::to_os_string`), resolves the original local
being cloned by a reverse scan of the block's statements
(`find_stmt_assigns_to`, plus one extra hop through the single predecessor's
`Deref::deref` call for the from-dereference family), and then scans every
block reachable after the call in reverse postorder for a use of that local
other than a drop or a non-use (`LocalUseVisitor`).  If no such use exists it
emits a "redundant clone" finding, narrowing the suggestion span to the last
`.` of the rendered snippet when a snippet is available.

Machine integers: MIR locals and block ids are modelled as `Nat` (they are
array indices in rustc and never overflow); byte positions are `Nat` as well,
with the single explicit `u32::try_from(dot).unwrap()` of the source modelled
by an explicit `dot < 2 ^ 32` check.  Type/paths oracles (`is_copy`,
`snippet_opt`) are fields of `LintContext`; the fixed callee paths and the
recognized type paths are enumerated.  The two panics reachable in the source
(`unreachable!()` when `source_scope_local_data` is not `Set`, and the `u32`
conversion `unwrap`) are modelled by `Except.error`.
-/

/-- A MIR local variable slot (`mir::Local`): a stable index. -/
abbrev MirLocal := Nat

/-- The callee identities the lint compares against (`paths::*`), plus an
`otherFn` constructor for every other function. -/
inductive FnName
  | clone_trait_method
  | to_owned_method
  | to_string_method
  | deref_trait_method
  | path_to_path_buf
  | os_str_to_os_string
  | otherFn (n : Nat)
deriving DecidableEq, Repr

/-- The type identities the lint compares against (`paths::STRING`,
`paths::PATH_BUF`, `paths::OS_STRING`), plus every other nominal type. -/
inductive TyName
  | stringTy
  | pathBuf
  | osString
  | otherName (n : Nat)
deriving DecidableEq, Repr

/-- Types as far as the lint inspects them: references (peeled by
`walk_ptrs_ty_depth`), nominal types (compared by `match_type`), function
definitions (`ty::FnDef`), anything else. -/
inductive Ty
  | ref (t : Ty)
  | adt (n : TyName)
  | fnDef (f : FnName)
  | otherTy (n : Nat)
deriving DecidableEq, Repr

/-- A MIR place.  The lint only pattern-matches `Place::Local`; projections
are kept abstract apart from their base local (which the MIR visitor still
reports), statics carry no local. -/
inductive Place
  | local (l : MirLocal)
  | projection (base : MirLocal)
  | staticPlace
deriving DecidableEq, Repr

/-- A MIR operand. -/
inductive Operand
  | copy (p : Place)
  | move (p : Place)
  | constant (ty : Ty)
deriving DecidableEq, Repr

/-- Right-hand sides of assignments as far as the lint inspects them:
`Rvalue::Ref`, `Rvalue::Use`, and any other rvalue abstracted to the list of
operands it reads. -/
inductive Rvalue
  | ref (p : Place)
  | use (op : Operand)
  | otherRv (ops : List Operand)
deriving DecidableEq, Repr

/-- MIR statement kinds. -/
inductive Statement
  | assign (p : Place) (v : Rvalue)
  | storageLive (l : MirLocal)
  | storageDead (l : MirLocal)
  | nop
deriving DecidableEq, Repr

/-- A source span: byte positions plus whether it originates from a macro
expansion (the `in_macro` collaborator inspects exactly this). -/
structure Span where
  lo : Nat
  hi : Nat
  fromExpansion : Bool
deriving DecidableEq, Repr

/-- MIR terminator kinds.  `call` carries the callee operand, the arguments,
the optional destination place with its target block, and the optional
cleanup block; other variants are kept with their successor structure and,
abstractly, the operands they read. -/
inductive TerminatorKind
  | call (func : Operand) (args : List Operand) (dest : Option (Place × Nat)) (cleanup : Option Nat)
  | drop (place : Place) (target : Nat) (unwind : Option Nat)
  | switchInt (discr : Operand) (targets : List Nat)
  | goto (target : Nat)
  | otherTerm (ops : List Operand) (succ : List Nat)
deriving DecidableEq, Repr

/-- A terminator together with its `source_info.span`. -/
structure Terminator where
  kind : TerminatorKind
  span : Span
deriving DecidableEq, Repr

/-- A basic block: statements followed by exactly one terminator. -/
structure BasicBlockData where
  statements : List Statement
  terminator : Terminator
deriving DecidableEq, Repr

/-- A function body: blocks indexed by `Nat`, local declarations giving each
local its type, and whether `source_scope_local_data` is
`ClearCrossCrate::Set` (the emitter hits `unreachable!()` otherwise). -/
structure Mir where
  blocks : List BasicBlockData
  local_decls : List Ty
  source_scope_local_data_set : Bool
deriving DecidableEq, Repr

/-- The opaque collaborators consumed from the host compiler: the
`is_copy` type oracle and `snippet_opt` source rendering. -/
structure LintContext where
  is_copy : Ty → Bool
  snippet_opt : Span → Option (List Char)

/-- Embeds `Terminator::successors()`. -/
def TerminatorKind.successors : TerminatorKind → List Nat
  | .call _ _ dest cleanup =>
      (match dest with | some (_, t) => [t] | none => []) ++
        (match cleanup with | some c => [c] | none => [])
  | .drop _ target unwind => target :: (match unwind with | some u => [u] | none => [])
  | .switchInt _ targets => targets
  | .goto t => [t]
  | .otherTerm _ s => s

instance : Inhabited BasicBlockData :=
  ⟨{ statements := [],
     terminator := { kind := .otherTerm [] [], span := { lo := 0, hi := 0, fromExpansion := false } } }⟩

/-- Look a basic block up by id (total, with a successor-free default). -/
def Mir.block (mir : Mir) (b : Nat) : BasicBlockData := mir.blocks.getD b default

/-- The declared type of a local (`mir.local_decls[l].ty`). -/
def Mir.localTy (mir : Mir) (l : MirLocal) : Ty := mir.local_decls.getD l (Ty.otherTy 0)

/-- The type of an operand (`Operand::ty`). -/
def operandTy (mir : Mir) : Operand → Ty
  | .copy (.local l) => mir.localTy l
  | .move (.local l) => mir.localTy l
  | .copy _ => Ty.otherTy 0
  | .move _ => Ty.otherTy 0
  | .constant t => t

/-- Embeds `utils::walk_ptrs_ty_depth`: peel references, returning the inner type
and the number of references peeled. -/
def walk_ptrs_ty_depth : Ty → Ty × Nat
  | .ref t => let r := walk_ptrs_ty_depth t; (r.1, r.2 + 1)
  | .adt n => (.adt n, 0)
  | .fnDef f => (.fnDef f, 0)
  | .otherTy n => (.otherTy n, 0)

/-- Embeds `utils::match_def_path` against one of the fixed paths. -/
def match_def_path (d p : FnName) : Bool := d == p

/-- Embeds `utils::match_type` against one of the fixed type paths. -/
def match_type (t : Ty) (p : TyName) : Bool :=
  match t with
  | .adt n => n == p
  | _ => false

/-- Embeds `is_call_with_ref_arg`: if `kind` is `y = func(x: &T)` where `T: !Copy`,
returns `(DefId of func, x, T, y)`. -/
def is_call_with_ref_arg (cx : LintContext) (mir : Mir) (kind : TerminatorKind) :
    Option (FnName × MirLocal × Ty × Option Place) :=
  match kind with
  | .call func args dest _ =>
    match args with
    | [arg0] =>
      match arg0 with
      | Operand.move (Place.local l) =>
        match operandTy mir func with
        | .fnDef fn_def_id =>
          match walk_ptrs_ty_depth (operandTy mir (Operand.move (Place.local l))) with
          | (inner_ty, depth) =>
            if depth = 1 then
              if cx.is_copy inner_ty then none
              else some (fn_def_id, l, inner_ty, dest.map (fun d => d.1))
            else none
        | _ => none
      | _ => none
    | _ => none
  | _ => none

/-- Embeds `find_stmt_assigns_to`: finds the first `to = (&)from` in the given
statement iteration order, and returns `some from`. -/
def find_stmt_assigns_to (tgt : MirLocal) (by_ref : Bool) (stmts : List Statement) :
    Option MirLocal :=
  stmts.findSome? fun stmt =>
    match stmt with
    | .assign (.local l) v =>
      if l = tgt then
        if by_ref then
          match v with
          | .ref (.local r) => some r
          | _ => none
        else
          match v with
          | .use (.copy (.local r)) => some r
          | _ => none
      else none
    | _ => none

/-- Modelled from the spec (§4.2): the qualifying-assignment shape the
Backward Origin Resolver looks for: an assignment to the argument slot whose
right-hand side is take-reference-of(r) in by-reference mode, or copy-of(r)
in by-copy mode; any other statement is passed over. -/
def assignSource (tgt : MirLocal) (by_ref : Bool) (s : Statement) : Option MirLocal :=
  match s with
  | .assign (.local l) v =>
    if l = tgt then
      if by_ref then
        match v with
        | .ref (.local r) => some r
        | _ => none
      else
        match v with
        | .use (.copy (.local r)) => some r
        | _ => none
    else none
  | _ => none

/-- MIR visitor contexts: the mutating-use subkinds the lint can encounter. -/
inductive MutatingUseContext
  | store
  | callDest
  | drop
  | borrow
deriving DecidableEq, Repr

/-- MIR visitor contexts: non-mutating uses. -/
inductive NonMutatingUseContext
  | copy
  | move
  | sharedBorrow
  | inspect
deriving DecidableEq, Repr

/-- MIR visitor contexts: non-uses (storage liveness bookkeeping). -/
inductive NonUseContext
  | storageLive
  | storageDead
deriving DecidableEq, Repr

/-- Embeds `mir::visit::PlaceContext`. -/
inductive PlaceContext
  | mutatingUse (c : MutatingUseContext)
  | nonMutatingUse (c : NonMutatingUseContext)
  | nonUse (c : NonUseContext)
deriving DecidableEq, Repr

/-- The `(local, context)` visits the MIR visitor performs on one place. -/
def placeVisits (p : Place) (c : PlaceContext) : List (MirLocal × PlaceContext) :=
  match p with
  | .local l => [(l, c)]
  | .projection base => [(base, c)]
  | .staticPlace => []

/-- The visits performed on one operand. -/
def operandVisits : Operand → List (MirLocal × PlaceContext)
  | .copy p => placeVisits p (.nonMutatingUse .copy)
  | .move p => placeVisits p (.nonMutatingUse .move)
  | .constant _ => []

/-- The visits performed on one rvalue. -/
def rvalueVisits : Rvalue → List (MirLocal × PlaceContext)
  | .ref p => placeVisits p (.nonMutatingUse .sharedBorrow)
  | .use op => operandVisits op
  | .otherRv ops => ops.flatMap operandVisits

/-- The visits performed on one statement. -/
def Statement.visits : Statement → List (MirLocal × PlaceContext)
  | .assign p v => placeVisits p (.mutatingUse .store) ++ rvalueVisits v
  | .storageLive l => [(l, .nonUse .storageLive)]
  | .storageDead l => [(l, .nonUse .storageDead)]
  | .nop => []

/-- The visits performed on one terminator. -/
def TerminatorKind.visits : TerminatorKind → List (MirLocal × PlaceContext)
  | .call func args dest _ =>
      operandVisits func ++ args.flatMap operandVisits ++
        (match dest with | some (p, _) => placeVisits p (.mutatingUse .callDest) | none => [])
  | .drop p _ _ => placeVisits p (.mutatingUse .drop)
  | .switchInt d _ => operandVisits d
  | .goto _ => []
  | .otherTerm ops _ => ops.flatMap operandVisits

/-- Embeds `LocalUseVisitor::visit_local`: a visit of `l` in context `c` flags the
target local unless the context is a drop or a non-use. -/
def visit_local (target l : MirLocal) (c : PlaceContext) : Bool :=
  match c with
  | .mutatingUse .drop => false
  | .nonUse _ => false
  | _ => l == target

/-- Whether visiting one statement flags the target local. -/
def stmtUses (target : MirLocal) (s : Statement) : Bool :=
  s.visits.any fun lc => visit_local target lc.1 lc.2

/-- Whether visiting one terminator flags the target local. -/
def termUses (target : MirLocal) (t : TerminatorKind) : Bool :=
  t.visits.any fun lc => visit_local target lc.1 lc.2

/-- The statement loop of `LocalUseVisitor::visit_basic_block_data`
(early-exits once flagged). -/
def visitStmtList (target : MirLocal) : List Statement → Bool
  | [] => false
  | s :: rest => if stmtUses target s then true else visitStmtList target rest

/-- Embeds `LocalUseVisitor::visit_basic_block_data`: statements first, the
terminator only when no statement flagged the local. -/
def visit_basic_block_data (target : MirLocal) (data : BasicBlockData) : Bool :=
  visitStmtList target data.statements || termUses target data.terminator.kind

/-- The successor function of a body's control-flow graph. -/
def mirSuccs (mir : Mir) (b : Nat) : List Nat := (mir.block b).terminator.kind.successors

/-- Embeds `mir.predecessors_for(bb)`: every block (in block order, with
multiplicity) whose terminator lists `bb` among its successors. -/
def predecessors (mir : Mir) (bb : Nat) : List Nat :=
  (List.range mir.blocks.length).flatMap fun b =>
    (mirSuccs mir b).filterMap fun s => if s = bb then some b else none

/-- Depth-first postorder visit of one node (rustc's
`traversal::Postorder`): returns the visited set and the postorder list of
newly visited nodes.  `fuel` only bounds the number of not-yet-visited nodes
and is irrelevant once it exceeds that number. -/
def poVisit (g : Nat → List Nat) : Nat → Nat → List Nat → List Nat × List Nat
  | 0, _, visited => (visited, [])
  | fuel + 1, b, visited =>
    if b ∈ visited then (visited, [])
    else
      let s := (g b).foldl
        (fun acc c => let r := poVisit g fuel c acc.1; (r.1, acc.2 ++ r.2))
        (b :: visited, ([] : List Nat))
      (s.1, s.2 ++ [b])

/-- Depth-first postorder visit of a worklist of nodes. -/
def poList (g : Nat → List Nat) (fuel : Nat) (ws visited : List Nat) : List Nat × List Nat :=
  ws.foldl
    (fun acc c => let r := poVisit g fuel c acc.1; (r.1, acc.2 ++ r.2))
    (visited, ([] : List Nat))

/-- Embeds `traversal::ReversePostorder::new(&mir, root)`: the reverse of the
depth-first postorder from `root`; `root` itself comes first. -/
def reversePostorder (mir : Mir) (root : Nat) : List Nat :=
  (poVisit (mirSuccs mir) (mir.blocks.length + 1) root []).2.reverse

/-- The forward liveness scan (`check_fn`, lines 158-170): walk the reverse
postorder from the call's block, skipping that block itself; give up (treat
as used) on a back-edge to the call's block, otherwise run the
`LocalUseVisitor` over the block. -/
def usedLater (mir : Mir) (bb : Nat) (referent : MirLocal) : Bool :=
  ((reversePostorder mir bb).drop 1).any fun tbb =>
    if (mir.block tbb).terminator.kind.successors.any (fun s => s == bb) then true
    else visit_basic_block_data referent (mir.block tbb)

/-- The from-borrow callee family (`check_fn`, lines 113-116). -/
def fromBorrow (fn_def_id : FnName) (arg_ty : Ty) : Bool :=
  match_def_path fn_def_id .clone_trait_method ||
    match_def_path fn_def_id .to_owned_method ||
    (match_def_path fn_def_id .to_string_method && match_type arg_ty .stringTy)

/-- The from-dereference callee family (`check_fn`, lines 118-120). -/
def fromDeref (from_borrow : Bool) (fn_def_id : FnName) : Bool :=
  !from_borrow &&
    (match_def_path fn_def_id .path_to_path_buf || match_def_path fn_def_id .os_str_to_os_string)

/-- The extra backward hop for the from-dereference family (`check_fn`,
lines 132-153): the call's block must have exactly one predecessor whose
terminator is a classifier-matching call writing `cloned`, whose callee is
`Deref::deref`, and whose argument points to `PathBuf` or `OsString`; then
rescan that predecessor's statements by reference. -/
def resolveDeref (cx : LintContext) (mir : Mir) (bb : Nat) (cloned : MirLocal) :
    Option MirLocal :=
  match predecessors mir bb with
  | [p] =>
    match is_call_with_ref_arg cx mir (mir.block p).terminator.kind with
    | some (pred_fn_def_id, pred_arg, pred_arg_ty, some res) =>
      if res == Place.local cloned &&
          match_def_path pred_fn_def_id .deref_trait_method &&
          (match_type pred_arg_ty .pathBuf || match_type pred_arg_ty .osString) then
        find_stmt_assigns_to pred_arg true (mir.block p).statements.reverse
      else none
    | _ => none
  | _ => none

/-- The per-call-site part of `check_fn` up to the liveness scan: macro and
self-loop skips, classifier, family test, backward origin resolution.
Returns the resolved original local and the call's span. -/
def resolveCallSite (cx : LintContext) (mir : Mir) (bb : Nat) : Option (MirLocal × Span) :=
  let terminator := (mir.block bb).terminator
  if terminator.span.fromExpansion then none
  else if terminator.kind.successors.any (fun s => s == bb) then none
  else
    match is_call_with_ref_arg cx mir terminator.kind with
    | none => none
    | some (fn_def_id, arg, arg_ty, _) =>
      let from_borrow := fromBorrow fn_def_id arg_ty
      let from_deref := fromDeref from_borrow fn_def_id
      if !from_borrow && !from_deref then none
      else
        match find_stmt_assigns_to arg from_borrow (mir.block bb).statements.reverse with
        | none => none
        | some cloned =>
          if from_deref then
            match resolveDeref cx mir bb cloned with
            | none => none
            | some referent => some (referent, terminator.span)
          else some (cloned, terminator.span)

/-- Embeds `snip.rfind('.')`: index of the last occurrence of `c`. -/
def rfindIdx (c : Char) : List Char → Option Nat
  | [] => none
  | x :: xs =>
    match rfindIdx c xs with
    | some i => some (i + 1)
    | none => if x == c then some 0 else none

/-- Embeds `Span::with_lo`. -/
def Span.withLo (s : Span) (lo : Nat) : Span := { s with lo := lo }

/-- Embeds `Span::with_hi`. -/
def Span.withHi (s : Span) (hi : Nat) : Span := { s with hi := hi }

/-- One advisory finding, as the spec's §6 output record. -/
structure Finding where
  primary_span : Span
  suggestion_span : Option Span
  note_span : Option Span
  message : String
deriving DecidableEq, Repr

/-- The emitter (`check_fn`, lines 173-203): requires
`source_scope_local_data` to be `Set` (`unreachable!()` otherwise); narrows
the suggestion to start at the last `.` of the snippet when one is rendered
(the `u32` conversion of the dot index is the only other panic), with a note
over the part before the dot; otherwise lints the full span. -/
def emitFinding (cx : LintContext) (mir : Mir) (span : Span) : Except String Finding :=
  if mir.source_scope_local_data_set then
    match cx.snippet_opt span with
    | some snip =>
      match rfindIdx '.' snip with
      | some dot =>
        if dot < 2 ^ 32 then
          Except.ok
            { primary_span := span.withLo (span.lo + dot)
              suggestion_span := some (span.withLo (span.lo + dot))
              note_span := some (span.withHi (span.lo + dot))
              message := "redundant clone" }
        else Except.error "u32 conversion"
      | none =>
        Except.ok
          { primary_span := span, suggestion_span := none, note_span := none
            message := "redundant clone" }
    | none =>
      Except.ok
        { primary_span := span, suggestion_span := none, note_span := none
          message := "redundant clone" }
  else Except.error "unreachable"

/-- The whole per-block loop body of `check_fn`: at most one finding per
call-site, a panic only inside the emitter. -/
def checkBlock (cx : LintContext) (mir : Mir) (bb : Nat) : Except String (Option Finding) :=
  match resolveCallSite cx mir bb with
  | none => Except.ok none
  | some (referent, span) =>
    if usedLater mir bb referent then Except.ok none
    else
      match emitFinding cx mir span with
      | Except.ok f => Except.ok (some f)
      | Except.error e => Except.error e

/-- The `check_fn` loop over a list of block ids: findings are collected in
visit order, a panic aborts the run. -/
def runBlocks (cx : LintContext) (mir : Mir) : List Nat → Except String (List Finding)
  | [] => Except.ok []
  | b :: rest =>
    match checkBlock cx mir b with
    | Except.error e => Except.error e
    | Except.ok none => runBlocks cx mir rest
    | Except.ok (some f) =>
      match runBlocks cx mir rest with
      | Except.error e => Except.error e
      | Except.ok fs => Except.ok (f :: fs)

/-- Embeds `check_fn`: every block, in block order. -/
def check_fn (cx : LintContext) (mir : Mir) : Except String (List Finding) :=
  runBlocks cx mir (List.range mir.blocks.length)

/-- One step of the successor relation. -/
def Reaches (g : Nat → List Nat) : Nat → Nat → Prop :=
  Relation.ReflTransGen (fun a b => b ∈ g a)

/-- Well-formedness of a body: successors of in-range blocks are in range. -/
def Mir.wf (mir : Mir) : Prop :=
  ∀ b, b < mir.blocks.length → ∀ s ∈ mirSuccs mir b, s < mir.blocks.length

/-- Number of in-range nodes not yet visited (the DFS fuel invariant). -/
def unvisitedCount (N : Nat) (visited : List Nat) : Nat :=
  ((List.range N).filter fun x => !visited.contains x).length

/-- Oracle fixture: nominal types are not trivially copyable, everything
else is. -/
def exCtxCore : Ty → Bool
  | Ty.adt _ => false
  | _ => true

/-- Context fixture whose renderer knows the span of the example call. -/
def exCtx : LintContext :=
  { is_copy := exCtxCore
    snippet_opt := fun sp =>
      if sp == { lo := 10, hi := 30, fromExpansion := false } then
        some ("x.clone()".toList)
      else none }

/-- Context fixture with no source rendering available. -/
def exCtxNone : LintContext :=
  { is_copy := exCtxCore, snippet_opt := fun _ => none }

/-- Context fixture rendering a snippet with two member accesses. -/
def exCtxTwoDots : LintContext :=
  { is_copy := exCtxCore
    snippet_opt := fun sp =>
      if sp == { lo := 10, hi := 30, fromExpansion := false } then
        some ("a.b.clone()".toList)
      else none }

/-- Body fixture (spec §8 Scenario A): `_2 = &_1; _3 = clone(move _2);`
with `_1 : String` never used afterwards. -/
def exMir : Mir :=
  { blocks :=
      [ { statements := [Statement.assign (Place.local 2) (Rvalue.ref (Place.local 1))]
          terminator :=
            { kind := TerminatorKind.call (Operand.constant (Ty.fnDef FnName.clone_trait_method))
                [Operand.move (Place.local 2)] (some (Place.local 3, 1)) none
              span := { lo := 10, hi := 30, fromExpansion := false } } }
      , { statements := []
          terminator :=
            { kind := TerminatorKind.otherTerm [] []
              span := { lo := 0, hi := 0, fromExpansion := false } } } ]
    local_decls := [Ty.otherTy 0, Ty.adt TyName.stringTy, Ty.ref (Ty.adt TyName.stringTy),
      Ty.adt TyName.stringTy]
    source_scope_local_data_set := true }

/-- Like `exMir`, but `_1` is moved out again in the follow-up block. -/
def exMirUse : Mir :=
  { exMir with blocks :=
      [ exMir.block 0
      , { statements := [Statement.assign (Place.local 0) (Rvalue.use (Operand.move (Place.local 1)))]
          terminator :=
            { kind := TerminatorKind.otherTerm [] []
              span := { lo := 0, hi := 0, fromExpansion := false } } } ] }

/-- Like `exMir`, but the cloned inner type is trivially copyable. -/
def exMirCopy : Mir :=
  { exMir with local_decls := [Ty.otherTy 0, Ty.otherTy 5, Ty.ref (Ty.otherTy 5), Ty.otherTy 5] }

/-- Like `exMir`, but the call's block carries no assignment statement, so
the backward origin resolution finds nothing. -/
def exMirNoAssign : Mir :=
  { exMir with blocks := [{ exMir.block 0 with statements := [] }, exMir.block 1] }

/-- Like `exMir`, but the call's span originates from a macro expansion. -/
def exMirExpn : Mir :=
  { exMir with blocks :=
      [ { exMir.block 0 with terminator :=
            { kind := (exMir.block 0).terminator.kind
              span := { lo := 10, hi := 30, fromExpansion := true } } }
      , exMir.block 1 ] }

/-- A single self-looping block. -/
def exMirLoop : Mir :=
  { blocks :=
      [ { statements := []
          terminator :=
            { kind := TerminatorKind.goto 0
              span := { lo := 0, hi := 0, fromExpansion := false } } } ]
    local_decls := []
    source_scope_local_data_set := true }

/-- Body fixture (spec §8 Scenario D): `_2 = &_1; _3 = deref(move _2);` then
`_4 = _3; _5 = to_path_buf(move _4);` with `_1 : PathBuf`. -/
def exMirDeref : Mir :=
  { blocks :=
      [ { statements := [Statement.assign (Place.local 2) (Rvalue.ref (Place.local 1))]
          terminator :=
            { kind := TerminatorKind.call (Operand.constant (Ty.fnDef FnName.deref_trait_method))
                [Operand.move (Place.local 2)] (some (Place.local 3, 1)) none
              span := { lo := 0, hi := 9, fromExpansion := false } } }
      , { statements := [Statement.assign (Place.local 4) (Rvalue.use (Operand.copy (Place.local 3)))]
          terminator :=
            { kind := TerminatorKind.call (Operand.constant (Ty.fnDef FnName.path_to_path_buf))
                [Operand.move (Place.local 4)] (some (Place.local 5, 2)) none
              span := { lo := 40, hi := 60, fromExpansion := false } } }
      , { statements := []
          terminator :=
            { kind := TerminatorKind.otherTerm [] []
              span := { lo := 0, hi := 0, fromExpansion := false } } } ]
    local_decls := [Ty.otherTy 0, Ty.adt TyName.pathBuf, Ty.ref (Ty.adt TyName.pathBuf),
      Ty.ref (Ty.adt (TyName.otherName 7)), Ty.ref (Ty.adt (TyName.otherName 7)),
      Ty.adt TyName.pathBuf]
    source_scope_local_data_set := true }

/-- Like `exMirDeref`, but the predecessor block carries no assignment, so
the second backward hop finds nothing. -/
def exMirDerefFail : Mir :=
  { exMirDeref with blocks :=
      [ { exMirDeref.block 0 with statements := [] }
      , exMirDeref.block 1
      , exMirDeref.block 2 ] }


theorem filter_length_le_of_imp (p q : Nat → Bool) (h : ∀ x, q x = true → p x = true) :
    ∀ l : List Nat, (l.filter q).length ≤ (l.filter p).length := by
  intro l
  induction l with
  | nil => simp
  | cons a l ih =>
    simp only [List.filter_cons]
    by_cases hq : q a = true
    · simp only [hq, h a hq, if_true, List.length_cons]
      omega
    · simp only [Bool.not_eq_true] at hq
      simp only [hq, Bool.false_eq_true, if_false]
      cases hp : p a
      · simp only [Bool.false_eq_true, if_false]; exact ih
      · simp only [if_true, List.length_cons]; omega

theorem filter_length_lt (p q : Nat → Bool) (h : ∀ x, q x = true → p x = true)
    (b : Nat) (hp : p b = true) (hq : q b = false) :
    ∀ l : List Nat, b ∈ l → (l.filter q).length < (l.filter p).length := by
  intro l
  induction l with
  | nil => intro hb; cases hb
  | cons a l ih =>
    intro hb
    simp only [List.filter_cons]
    rcases List.mem_cons.mp hb with rfl | hb
    · simp only [hp, hq, Bool.false_eq_true, if_false, if_true, List.length_cons]
      have := filter_length_le_of_imp p q h l
      omega
    · have hlt := ih hb
      by_cases hqa : q a = true
      · simp only [hqa, h a hqa, if_true, List.length_cons]; omega
      · simp only [Bool.not_eq_true] at hqa
        simp only [hqa, Bool.false_eq_true, if_false]
        cases hpa : p a
        · simp only [Bool.false_eq_true, if_false]; exact hlt
        · simp only [if_true, List.length_cons]; omega

theorem bnot_contains_eq (l : List Nat) (x : Nat) : (!l.contains x) = decide (x ∉ l) := by
  simp [List.contains, List.elem_eq_mem]

theorem unvisitedCount_lt (N : Nat) (visited : List Nat) (b : Nat)
    (hbN : b < N) (hb : b ∉ visited) :
    unvisitedCount N (b :: visited) < unvisitedCount N visited := by
  apply filter_length_lt
  · intro x hx
    rw [bnot_contains_eq] at hx ⊢
    simp only [decide_eq_true_eq] at hx ⊢
    intro hmem
    exact hx (List.mem_cons_of_mem _ hmem)
  · rw [bnot_contains_eq]
    simp only [decide_eq_true_eq]
    exact hb
  · rw [bnot_contains_eq]
    simp only [decide_eq_false_iff_not, Decidable.not_not]
    exact List.mem_cons_self _ _
  · exact List.mem_range.mpr hbN

theorem unvisitedCount_le (N : Nat) (v v' : List Nat) (h : v ⊆ v') :
    unvisitedCount N v' ≤ unvisitedCount N v := by
  apply filter_length_le_of_imp
  intro x hx
  rw [bnot_contains_eq] at hx ⊢
  simp only [decide_eq_true_eq] at hx ⊢
  intro hmem
  exact hx (h hmem)

theorem unvisitedCount_nil (N : Nat) : unvisitedCount N [] = N := by
  simp [unvisitedCount]

theorem poList_nil (g : Nat → List Nat) (fuel : Nat) (visited : List Nat) :
    poList g fuel [] visited = (visited, []) := rfl

theorem poList_acc (g : Nat → List Nat) (fuel : Nat) :
    ∀ (ws : List Nat) (v l : List Nat),
      ws.foldl (fun acc c => let r := poVisit g fuel c acc.1; (r.1, acc.2 ++ r.2)) (v, l)
        = ((poList g fuel ws v).1, l ++ (poList g fuel ws v).2) := by
  intro ws
  induction ws with
  | nil => intro v l; simp [poList]
  | cons c ws ih =>
    intro v l
    simp only [poList, List.foldl_cons]
    rw [ih, ih]
    simp

theorem poList_cons (g : Nat → List Nat) (fuel c : Nat) (ws visited : List Nat) :
    poList g fuel (c :: ws) visited =
      ((poList g fuel ws (poVisit g fuel c visited).1).1,
        (poVisit g fuel c visited).2 ++ (poList g fuel ws (poVisit g fuel c visited).1).2) := by
  simp only [poList, List.foldl_cons]
  rw [poList_acc]
  simp [poList]

theorem poVisit_zero (g : Nat → List Nat) (b : Nat) (visited : List Nat) :
    poVisit g 0 b visited = (visited, []) := rfl

theorem poVisit_succ_mem (g : Nat → List Nat) (fuel b : Nat) (visited : List Nat)
    (h : b ∈ visited) : poVisit g (fuel + 1) b visited = (visited, []) := by
  simp [poVisit, h]

theorem poVisit_succ_notMem (g : Nat → List Nat) (fuel b : Nat) (visited : List Nat)
    (h : b ∉ visited) :
    poVisit g (fuel + 1) b visited =
      ((poList g fuel (g b) (b :: visited)).1,
        (poList g fuel (g b) (b :: visited)).2 ++ [b]) := by
  simp [poVisit, h, poList]

theorem poAux_mono (g : Nat → List Nat) :
    ∀ fuel : Nat,
      (∀ b visited, visited ⊆ (poVisit g fuel b visited).1) ∧
      (∀ ws visited, visited ⊆ (poList g fuel ws visited).1) := by
  intro fuel
  induction fuel with
  | zero =>
    constructor
    · intro b visited
      rw [poVisit_zero]
      exact fun _ h => h
    · intro ws
      induction ws with
      | nil => intro visited; rw [poList_nil]; exact fun _ h => h
      | cons c ws ih =>
        intro visited
        rw [poList_cons]
        simpa [poVisit_zero] using ih visited
  | succ fuel ih =>
    have hV : ∀ b visited, visited ⊆ (poVisit g (fuel + 1) b visited).1 := by
      intro b visited
      by_cases h : b ∈ visited
      · rw [poVisit_succ_mem g fuel b visited h]
        exact fun _ hx => hx
      · rw [poVisit_succ_notMem g fuel b visited h]
        intro x hx
        exact ih.2 (g b) (b :: visited) (List.mem_cons_of_mem _ hx)
    refine ⟨hV, ?_⟩
    intro ws
    induction ws with
    | nil => intro visited; rw [poList_nil]; exact fun _ h => h
    | cons c ws ihw =>
      intro visited
      rw [poList_cons]
      intro x hx
      exact ihw _ (hV c visited hx)

theorem poVisit_mono (g : Nat → List Nat) (fuel b : Nat) (visited : List Nat) :
    visited ⊆ (poVisit g fuel b visited).1 := (poAux_mono g fuel).1 b visited

theorem poList_mono (g : Nat → List Nat) (fuel : Nat) (ws visited : List Nat) :
    visited ⊆ (poList g fuel ws visited).1 := (poAux_mono g fuel).2 ws visited

theorem poVisit_self_mem (g : Nat → List Nat) (fuel b : Nat) (visited : List Nat) :
    b ∈ (poVisit g (fuel + 1) b visited).1 := by
  by_cases h : b ∈ visited
  · rw [poVisit_succ_mem g fuel b visited h]; exact h
  · rw [poVisit_succ_notMem g fuel b visited h]
    exact poList_mono g fuel (g b) (b :: visited) (List.mem_cons_self b visited)

theorem poList_mem (g : Nat → List Nat) (fuel : Nat) :
    ∀ (ws visited : List Nat) (b : Nat), b ∈ ws → b ∈ (poList g (fuel + 1) ws visited).1 := by
  intro ws
  induction ws with
  | nil => intro visited b hb; cases hb
  | cons c ws ih =>
    intro visited b hb
    rw [poList_cons]
    rcases List.mem_cons.mp hb with rfl | hb
    · exact poList_mono g (fuel + 1) ws _ (poVisit_self_mem g fuel b visited)
    · exact ih _ b hb

theorem poAux_closed (g : Nat → List Nat) (N : Nat)
    (hG : ∀ a, a < N → ∀ y ∈ g a, y < N) :
    ∀ fuel : Nat,
      (∀ b visited, b < N → unvisitedCount N visited < fuel →
        ∀ x ∈ (poVisit g fuel b visited).1, x ∉ visited →
          ∀ y ∈ g x, y ∈ (poVisit g fuel b visited).1) ∧
      (∀ ws visited, (∀ w ∈ ws, w < N) → unvisitedCount N visited < fuel →
        ∀ x ∈ (poList g fuel ws visited).1, x ∉ visited →
          ∀ y ∈ g x, y ∈ (poList g fuel ws visited).1) := by
  intro fuel
  induction fuel with
  | zero =>
    constructor
    · intro b visited _ hcount; omega
    · intro ws visited _ hcount; omega
  | succ fuel ih =>
    have hV : ∀ b visited, b < N → unvisitedCount N visited < fuel + 1 →
        ∀ x ∈ (poVisit g (fuel + 1) b visited).1, x ∉ visited →
          ∀ y ∈ g x, y ∈ (poVisit g (fuel + 1) b visited).1 := by
      intro b visited hbN hcount x hx hxv y hy
      by_cases hb : b ∈ visited
      · rw [poVisit_succ_mem g fuel b visited hb] at hx
        exact absurd hx hxv
      · rw [poVisit_succ_notMem g fuel b visited hb] at hx ⊢
        have hcount' : unvisitedCount N (b :: visited) < fuel := by
          have := unvisitedCount_lt N visited b hbN hb
          omega
        by_cases hxb : x = b
        · subst hxb
          obtain ⟨fuel', rfl⟩ : ∃ f, fuel = f + 1 := ⟨fuel - 1, by omega⟩
          exact poList_mem g fuel' (g x) (x :: visited) y hy
        · refine ih.2 (g b) (b :: visited) (hG b hbN) hcount' x hx ?_ y hy
          simp only [List.mem_cons, not_or]
          exact ⟨hxb, hxv⟩
    refine ⟨hV, ?_⟩
    intro ws
    induction ws with
    | nil =>
      intro visited _ _ x hx hxv
      rw [poList_nil] at hx
      exact absurd hx hxv
    | cons c ws ihw =>
      intro visited hws hcount x hx hxv y hy
      rw [poList_cons] at hx ⊢
      by_cases hx1 : x ∈ (poVisit g (fuel + 1) c visited).1
      · have hy1 := hV c visited (hws c (List.mem_cons_self c ws)) hcount x hx1 hxv y hy
        exact poList_mono g (fuel + 1) ws _ hy1
      · have hsub := poVisit_mono g (fuel + 1) c visited
        have hcount1 : unvisitedCount N (poVisit g (fuel + 1) c visited).1 < fuel + 1 :=
          lt_of_le_of_lt (unvisitedCount_le N visited _ hsub) hcount
        exact ihw _ (fun w hw => hws w (List.mem_cons_of_mem c hw)) hcount1 x hx hx1 y hy

theorem poAux_po_iff (g : Nat → List Nat) :
    ∀ fuel : Nat,
      (∀ b visited x, x ∈ (poVisit g fuel b visited).2 ↔
        x ∈ (poVisit g fuel b visited).1 ∧ x ∉ visited) ∧
      (∀ ws visited x, x ∈ (poList g fuel ws visited).2 ↔
        x ∈ (poList g fuel ws visited).1 ∧ x ∉ visited) := by
  intro fuel
  induction fuel with
  | zero =>
    constructor
    · intro b visited x
      rw [poVisit_zero]
      simp
    · intro ws
      induction ws with
      | nil => intro visited x; rw [poList_nil]; simp
      | cons c ws ihw =>
        intro visited x
        rw [poList_cons, poVisit_zero]
        simpa using ihw visited x
  | succ fuel ih =>
    have hV : ∀ b visited x, x ∈ (poVisit g (fuel + 1) b visited).2 ↔
        x ∈ (poVisit g (fuel + 1) b visited).1 ∧ x ∉ visited := by
      intro b visited x
      by_cases hb : b ∈ visited
      · rw [poVisit_succ_mem g fuel b visited hb]
        simp only [List.not_mem_nil, false_iff, not_and, not_not]
        intro hx; exact hx
      · rw [poVisit_succ_notMem g fuel b visited hb]
        simp only [List.mem_append, List.mem_singleton]
        constructor
        · rintro (hx | rfl)
          · have h := (ih.2 (g b) (b :: visited) x).mp hx
            exact ⟨h.1, fun hv => h.2 (List.mem_cons_of_mem _ hv)⟩
          · exact ⟨poList_mono g fuel (g x) (x :: visited) (List.mem_cons_self _ _), hb⟩
        · rintro ⟨hx1, hxv⟩
          by_cases hxb : x = b
          · right; exact hxb
          · left
            refine (ih.2 (g b) (b :: visited) x).mpr ⟨hx1, ?_⟩
            simp only [List.mem_cons, not_or]
            exact ⟨hxb, hxv⟩
    refine ⟨hV, ?_⟩
    intro ws
    induction ws with
    | nil => intro visited x; rw [poList_nil]; simp
    | cons c ws ihw =>
      intro visited x
      rw [poList_cons]
      simp only [List.mem_append]
      constructor
      · rintro (hx | hx)
        · have h := (hV c visited x).mp hx
          exact ⟨poList_mono g (fuel + 1) ws _ h.1, h.2⟩
        · have h := (ihw _ x).mp hx
          exact ⟨h.1, fun hv => h.2 (poVisit_mono g (fuel + 1) c visited hv)⟩
      · rintro ⟨hx2, hxv⟩
        by_cases hx1 : x ∈ (poVisit g (fuel + 1) c visited).1
        · left; exact (hV c visited x).mpr ⟨hx1, hxv⟩
        · right; exact (ihw _ x).mpr ⟨hx2, hx1⟩

theorem reach_mem_poVisit (g : Nat → List Nat) (N root : Nat)
    (hG : ∀ a, a < N → ∀ y ∈ g a, y < N) (hroot : root < N) :
    ∀ x, Reaches g root x → x ∈ (poVisit g (N + 1) root []).1 ∧ x < N := by
  have hroot0 : root ∉ ([] : List Nat) := List.not_mem_nil root
  have hunf := poVisit_succ_notMem g N root [] hroot0
  have hcount : unvisitedCount N [root] < N := by
    have h1 := unvisitedCount_lt N [] root hroot hroot0
    have h2 := unvisitedCount_nil N
    omega
  have hN1 : 1 ≤ N := by omega
  have hclosed : ∀ u ∈ (poList g N (g root) [root]).1, ∀ y ∈ g u,
      y ∈ (poList g N (g root) [root]).1 := by
    intro u hu y hy
    by_cases hu0 : u = root
    · subst hu0
      obtain ⟨N', rfl⟩ : ∃ m, N = m + 1 := ⟨N - 1, by omega⟩
      exact poList_mem g N' (g u) [u] y hy
    · refine (poAux_closed g N hG N).2 (g root) [root] (hG root hroot) hcount u hu ?_ y hy
      simp only [List.mem_singleton]
      exact hu0
  intro x hx
  rw [hunf]
  induction hx with
  | refl =>
    exact ⟨poList_mono g N (g root) [root] (List.mem_cons_self root []), hroot⟩
  | tail _ hstep ih =>
    exact ⟨hclosed _ ih.1 _ hstep, hG _ ih.2 _ hstep⟩

theorem reach_mem_rpo_drop (mir : Mir) (root x : Nat) (hwf : Mir.wf mir)
    (hroot : root < mir.blocks.length) (hx : Reaches (mirSuccs mir) root x)
    (hne : x ≠ root) : x ∈ (reversePostorder mir root).drop 1 := by
  have hroot0 : root ∉ ([] : List Nat) := List.not_mem_nil root
  have hunf := poVisit_succ_notMem (mirSuccs mir) mir.blocks.length root [] hroot0
  have hmem := reach_mem_poVisit (mirSuccs mir) mir.blocks.length root hwf hroot x hx
  rw [hunf] at hmem
  have hlist : x ∈ (poList (mirSuccs mir) mir.blocks.length (mirSuccs mir root) [root]).2 := by
    refine (poAux_po_iff (mirSuccs mir) mir.blocks.length).2 _ _ x |>.mpr ⟨hmem.1, ?_⟩
    simp only [List.mem_singleton]
    exact hne
  unfold reversePostorder
  rw [hunf, List.reverse_append]
  simp only [List.reverse_singleton, List.singleton_append, List.drop_succ_cons,
    List.drop_zero]
  exact List.mem_reverse.mpr hlist

theorem findSome?_first_iff {α β : Type} (f : α → Option β) :
    ∀ (l : List α) (r : β),
      l.findSome? f = some r ↔
        ∃ i, (∃ a, l[i]? = some a ∧ f a = some r) ∧
          ∀ (j : Nat) (a' : α), j < i → l[j]? = some a' → f a' = none := by
  intro l
  induction l with
  | nil =>
    intro r
    simp only [List.findSome?_nil, List.getElem?_nil]
    constructor
    · intro h; cases h
    · rintro ⟨i, ⟨a, ha, _⟩, _⟩; cases ha
  | cons a l ih =>
    intro r
    rw [List.findSome?_cons]
    cases hfa : f a with
    | some b =>
      constructor
      · intro h
        refine ⟨0, ⟨a, by simp, by rw [hfa]; exact h⟩, ?_⟩
        intro j a' hj
        omega
      · rintro ⟨i, ⟨a', ha', hfa'⟩, hmin⟩
        cases i with
        | zero =>
          simp only [List.getElem?_cons_zero, Option.some.injEq] at ha'
          subst ha'
          rw [hfa] at hfa'
          exact hfa'
        | succ i =>
          have h0 := hmin 0 a (by omega) (by simp)
          rw [hfa] at h0
          cases h0
    | none =>
      rw [ih]
      constructor
      · rintro ⟨i, ⟨a', ha', hf⟩, hmin⟩
        refine ⟨i + 1, ⟨a', by simpa using ha', hf⟩, ?_⟩
        intro j a'' hj ha''
        cases j with
        | zero =>
          simp only [List.getElem?_cons_zero, Option.some.injEq] at ha''
          subst ha''
          exact hfa
        | succ j =>
          exact hmin j a'' (by omega) (by simpa using ha'')
      · rintro ⟨i, ⟨a', ha', hf⟩, hmin⟩
        cases i with
        | zero =>
          simp only [List.getElem?_cons_zero, Option.some.injEq] at ha'
          subst ha'
          rw [hfa] at hf
          cases hf
        | succ i =>
          refine ⟨i, ⟨a', by simpa using ha', hf⟩, ?_⟩
          intro j a'' hj hj'
          exact hmin (j + 1) a'' (by omega) (by simpa using hj')

theorem find_stmt_assigns_to_eq (tgt : MirLocal) (by_ref : Bool) (stmts : List Statement) :
    find_stmt_assigns_to tgt by_ref stmts = stmts.findSome? (assignSource tgt by_ref) := by
  unfold find_stmt_assigns_to
  congr 1

theorem findSome?_eq_none_of_all {α β : Type} (f : α → Option β) :
    ∀ l : List α, (∀ a ∈ l, f a = none) → l.findSome? f = none := by
  intro l
  induction l with
  | nil => intro _; rfl
  | cons a l ih =>
    intro h
    rw [List.findSome?_cons, h a (List.mem_cons_self a l)]
    exact ih fun a' ha' => h a' (List.mem_cons_of_mem a ha')

theorem rfindIdx_eq_none_iff (c : Char) : ∀ l : List Char, rfindIdx c l = none ↔ c ∉ l := by
  intro l
  induction l with
  | nil => simp [rfindIdx]
  | cons x xs ih =>
    simp only [rfindIdx, List.mem_cons]
    cases h : rfindIdx c xs with
    | some i =>
      have hmem : c ∈ xs := by
        by_contra hc
        rw [← ih, h] at hc
        cases hc
      constructor
      · intro hc; cases hc
      · intro hc; exact absurd (Or.inr hmem) hc
    | none =>
      by_cases hx : (x == c) = true
      · simp only [hx, if_true]
        have hcx : c = x := (beq_iff_eq.mp hx).symm
        constructor
        · intro hc; cases hc
        · intro hc; exact absurd (Or.inl hcx) hc
      · simp only [Bool.not_eq_true] at hx
        simp only [hx, Bool.false_eq_true, if_false, true_iff]
        rintro (rfl | hmem)
        · simp at hx
        · exact (ih.mp h) hmem

theorem rfindIdx_lt_length (c : Char) :
    ∀ (l : List Char) (i : Nat), rfindIdx c l = some i → i < l.length := by
  intro l
  induction l with
  | nil => intro i h; cases h
  | cons x xs ih =>
    intro i h
    simp only [rfindIdx] at h
    cases hx : rfindIdx c xs with
    | some j =>
      rw [hx] at h
      simp only [Option.some.injEq] at h
      have := ih j hx
      simp only [List.length_cons]
      omega
    | none =>
      rw [hx] at h
      by_cases hb : (x == c) = true
      · simp only [hb, if_true, Option.some.injEq] at h
        simp only [List.length_cons]
        omega
      · simp only [Bool.not_eq_true] at hb
        rw [hb] at h
        cases h

theorem rfindIdx_getElem (c : Char) :
    ∀ (l : List Char) (i : Nat), rfindIdx c l = some i → l[i]? = some c := by
  intro l
  induction l with
  | nil => intro i h; cases h
  | cons x xs ih =>
    intro i h
    simp only [rfindIdx] at h
    cases hx : rfindIdx c xs with
    | some j =>
      rw [hx] at h
      simp only [Option.some.injEq] at h
      subst h
      simpa using ih j hx
    | none =>
      rw [hx] at h
      by_cases hb : (x == c) = true
      · simp only [hb, if_true, Option.some.injEq] at h
        subst h
        simp [beq_iff_eq.mp hb]
      · simp only [Bool.not_eq_true] at hb
        rw [hb] at h
        cases h

theorem rfindIdx_last (c : Char) :
    ∀ (l : List Char) (i : Nat), rfindIdx c l = some i →
      ∀ j, i < j → l[j]? ≠ some c := by
  intro l
  induction l with
  | nil => intro i h; cases h
  | cons x xs ih =>
    intro i h j hj
    simp only [rfindIdx] at h
    cases hx : rfindIdx c xs with
    | some jx =>
      rw [hx] at h
      simp only [Option.some.injEq] at h
      subst h
      obtain ⟨j', rfl⟩ : ∃ m, j = m + 1 := ⟨j - 1, by omega⟩
      simpa using ih jx hx j' (by omega)
    | none =>
      rw [hx] at h
      by_cases hb : (x == c) = true
      · simp only [hb, if_true, Option.some.injEq] at h
        subst h
        obtain ⟨j', rfl⟩ : ∃ m, j = m + 1 := ⟨j - 1, by omega⟩
        simp only [List.getElem?_cons_succ]
        intro hmem
        exact ((rfindIdx_eq_none_iff c xs).mp hx) (List.getElem?_mem hmem)
      · simp only [Bool.not_eq_true] at hb
        rw [hb] at h
        cases h

theorem rfindIdx_isSome_of_mem (c : Char) (l : List Char) (h : c ∈ l) :
    ∃ i, rfindIdx c l = some i := by
  cases hx : rfindIdx c l with
  | none => exact absurd h ((rfindIdx_eq_none_iff c l).mp hx)
  | some i => exact ⟨i, rfl⟩

theorem resolveCallSite_no_self_loop (cx : LintContext) (mir : Mir) (bb : Nat)
    (r : MirLocal) (sp : Span) (h : resolveCallSite cx mir bb = some (r, sp)) :
    ((mir.block bb).terminator.kind.successors.any fun s => s == bb) = false := by
  unfold resolveCallSite at h
  dsimp only at h
  split_ifs at h with h1 h2
  simp only [Bool.not_eq_true] at h2
  exact h2

theorem usedLater_of_backedge (mir : Mir) (bb : Nat) (referent : MirLocal) (t : Nat)
    (ht : t ∈ (reversePostorder mir bb).drop 1) (hb : bb ∈ mirSuccs mir t) :
    usedLater mir bb referent = true := by
  refine List.any_eq_true.mpr ⟨t, ht, ?_⟩
  have hcond : ((mir.block t).terminator.kind.successors.any fun s => s == bb) = true :=
    List.any_eq_true.mpr ⟨bb, hb, beq_self_eq_true bb⟩
  simp [hcond]

theorem usedLater_of_use (mir : Mir) (bb : Nat) (referent : MirLocal) (t : Nat)
    (ht : t ∈ (reversePostorder mir bb).drop 1)
    (hu : visit_basic_block_data referent (mir.block t) = true) :
    usedLater mir bb referent = true := by
  refine List.any_eq_true.mpr ⟨t, ht, ?_⟩
  cases hcond : ((mir.block t).terminator.kind.successors.any fun s => s == bb) <;>
    simp [hcond, hu]

theorem checkBlock_of_usedLater (cx : LintContext) (mir : Mir) (bb : Nat)
    (r : MirLocal) (sp : Span) (hres : resolveCallSite cx mir bb = some (r, sp))
    (hused : usedLater mir bb r = true) :
    checkBlock cx mir bb = Except.ok none := by
  simp [checkBlock, hres, hused]

theorem checkBlock_of_none (cx : LintContext) (mir : Mir) (bb : Nat)
    (hres : resolveCallSite cx mir bb = none) :
    checkBlock cx mir bb = Except.ok none := by
  simp [checkBlock, hres]

theorem emitFinding_ok (cx : LintContext) (mir : Mir) (span : Span)
    (hscope : mir.source_scope_local_data_set = true)
    (hsnip : ∀ snip, cx.snippet_opt span = some snip → snip.length ≤ 2 ^ 32) :
    ∃ f, emitFinding cx mir span = Except.ok f := by
  unfold emitFinding
  rw [hscope]
  simp only [if_true]
  cases hs : cx.snippet_opt span with
  | none => exact ⟨_, rfl⟩
  | some snip =>
    dsimp only
    cases hd : rfindIdx '.' snip with
    | none => exact ⟨_, rfl⟩
    | some dot =>
      have h1 := rfindIdx_lt_length '.' snip dot hd
      have h2 := hsnip snip hs
      have hd32 : dot < 2 ^ 32 := by omega
      dsimp only
      rw [if_pos hd32]
      exact ⟨_, rfl⟩

theorem checkBlock_ok (cx : LintContext) (mir : Mir) (bb : Nat)
    (hscope : mir.source_scope_local_data_set = true)
    (hsnip : ∀ sp snip, cx.snippet_opt sp = some snip → snip.length ≤ 2 ^ 32) :
    ∃ o, checkBlock cx mir bb = Except.ok o := by
  unfold checkBlock
  cases hres : resolveCallSite cx mir bb with
  | none => exact ⟨none, rfl⟩
  | some v =>
    obtain ⟨r, sp⟩ := v
    dsimp only
    by_cases hu : usedLater mir bb r = true
    · rw [if_pos hu]; exact ⟨none, rfl⟩
    · rw [if_neg hu]
      obtain ⟨f, hf⟩ := emitFinding_ok cx mir sp hscope (hsnip sp)
      rw [hf]
      exact ⟨some f, rfl⟩

theorem runBlocks_ok (cx : LintContext) (mir : Mir) :
    ∀ l : List Nat, (∀ b ∈ l, ∃ o, checkBlock cx mir b = Except.ok o) →
      ∃ l', runBlocks cx mir l = Except.ok l' := by
  intro l
  induction l with
  | nil => intro _; exact ⟨[], rfl⟩
  | cons b rest ih =>
    intro h
    obtain ⟨o, ho⟩ := h b (List.mem_cons_self b rest)
    obtain ⟨l', hl'⟩ := ih fun x hx => h x (List.mem_cons_of_mem b hx)
    cases o with
    | none => exact ⟨l', by rw [runBlocks, ho, hl']⟩
    | some f => exact ⟨f :: l', by rw [runBlocks, ho, hl']⟩

theorem resolveCallSite_of_classifier_none (cx : LintContext) (mir : Mir) (bb : Nat)
    (h : is_call_with_ref_arg cx mir (mir.block bb).terminator.kind = none) :
    resolveCallSite cx mir bb = none := by
  unfold resolveCallSite
  dsimp only
  split_ifs with h1 h2
  · rfl
  · rfl
  · rw [h]

theorem emitFinding_dot (cx : LintContext) (mir : Mir) (sp : Span) (snip : List Char)
    (dot : Nat) (hscope : mir.source_scope_local_data_set = true)
    (hs : cx.snippet_opt sp = some snip) (hd : rfindIdx '.' snip = some dot)
    (hd32 : dot < 2 ^ 32) :
    emitFinding cx mir sp = Except.ok
      { primary_span := sp.withLo (sp.lo + dot)
        suggestion_span := some (sp.withLo (sp.lo + dot))
        note_span := some (sp.withHi (sp.lo + dot))
        message := "redundant clone" } := by
  unfold emitFinding
  rw [hscope]
  simp only [if_true]
  rw [hs]
  dsimp only
  rw [hd]
  dsimp only
  rw [if_pos hd32]

theorem emitFinding_no_snippet (cx : LintContext) (mir : Mir) (sp : Span)
    (hscope : mir.source_scope_local_data_set = true)
    (hs : cx.snippet_opt sp = none) :
    emitFinding cx mir sp = Except.ok
      { primary_span := sp, suggestion_span := none, note_span := none
        message := "redundant clone" } := by
  unfold emitFinding
  rw [hscope]
  simp only [if_true]
  rw [hs]

theorem checkBlock_emit (cx : LintContext) (mir : Mir) (bb : Nat) (r : MirLocal)
    (sp : Span) (f : Finding) (hres : resolveCallSite cx mir bb = some (r, sp))
    (hused : usedLater mir bb r = false)
    (hemit : emitFinding cx mir sp = Except.ok f) :
    checkBlock cx mir bb = Except.ok (some f) := by
  unfold checkBlock
  rw [hres]
  dsimp only
  rw [if_neg (by rw [hused]; exact Bool.false_ne_true), hemit]

/-- Claim C8: a call whose terminator's source span originates from macro
expansion is skipped before classification, and no finding is produced for
it. -/
theorem expansion_span_skipped (cx : LintContext) (mir : Mir) (bb : Nat)
    (h : (mir.block bb).terminator.span.fromExpansion = true) :
    resolveCallSite cx mir bb = none ∧ checkBlock cx mir bb = Except.ok none := by
  have hres : resolveCallSite cx mir bb = none := by
    unfold resolveCallSite
    dsimp only
    rw [if_pos h]
  exact ⟨hres, checkBlock_of_none cx mir bb hres⟩

/-- Claim C2: if the call's own block lists itself among its successors, or
the forward reverse-postorder scan visits a block whose terminator has the
call's block among its successors (a back-edge to the call site), no finding
is produced. -/
theorem redundant_clone_loop_conservative (cx : LintContext) (mir : Mir) (bb : Nat)
    (h : bb ∈ mirSuccs mir bb ∨
      ∃ t ∈ (reversePostorder mir bb).drop 1, bb ∈ mirSuccs mir t) :
    checkBlock cx mir bb = Except.ok none := by
  rcases h with hself | ⟨t, ht, hb⟩
  · have hres : resolveCallSite cx mir bb = none := by
      unfold resolveCallSite
      dsimp only
      by_cases hm : (mir.block bb).terminator.span.fromExpansion = true
      · rw [if_pos hm]
      · rw [if_neg hm]
        have hany : ((mir.block bb).terminator.kind.successors.any fun s => s == bb) = true :=
          List.any_eq_true.mpr ⟨bb, hself, beq_self_eq_true bb⟩
        rw [if_pos hany]
    exact checkBlock_of_none cx mir bb hres
  · cases hres : resolveCallSite cx mir bb with
    | none => exact checkBlock_of_none cx mir bb hres
    | some v =>
      obtain ⟨r, sp⟩ := v
      exact checkBlock_of_usedLater cx mir bb r sp hres
        (usedLater_of_backedge mir bb r t ht hb)

/-- Claim C9: the analysis is deterministic: two runs of the check over the
same body with the same oracle answers produce identical finding sets (same
spans, suggestions, notes, and order). -/
theorem check_fn_deterministic (cx : LintContext) (mir : Mir)
    (l₁ l₂ : Except String (List Finding))
    (h₁ : check_fn cx mir = l₁) (h₂ : check_fn cx mir = l₂) : l₁ = l₂ := by
  rw [← h₁, ← h₂]

/-- Claim C6: under the host invariants (the scope data of an optimized body
is `Set`, and rendered snippets fit the `u32` byte-position space) the
analysis of any body runs to completion without a fatal error or panic:
every call-site outcome is a finding or a silent skip. -/
theorem check_fn_total (cx : LintContext) (mir : Mir)
    (hscope : mir.source_scope_local_data_set = true)
    (hsnip : ∀ sp snip, cx.snippet_opt sp = some snip → snip.length ≤ 2 ^ 32) :
    ∃ findings, check_fn cx mir = Except.ok findings := by
  unfold check_fn
  exact runBlocks_ok cx mir _ fun b _ => checkBlock_ok cx mir b hscope hsnip

/-- Claim C7: for a confirmed redundant call-site, if a snippet of the call's
span is rendered and contains a `.`, the finding's suggestion span starts at
that separator and the note covers the part before it; if no snippet is
rendered, the finding is emitted over the full span with no suggestion. -/
theorem emit_narrowing_spec :
    (∀ (cx : LintContext) (mir : Mir) (bb : Nat) (r : MirLocal) (sp : Span)
        (snip : List Char) (dot : Nat),
      resolveCallSite cx mir bb = some (r, sp) →
      usedLater mir bb r = false →
      mir.source_scope_local_data_set = true →
      cx.snippet_opt sp = some snip →
      rfindIdx '.' snip = some dot →
      dot < 2 ^ 32 →
      checkBlock cx mir bb = Except.ok (some
        { primary_span := sp.withLo (sp.lo + dot)
          suggestion_span := some (sp.withLo (sp.lo + dot))
          note_span := some (sp.withHi (sp.lo + dot))
          message := "redundant clone" })) ∧
    (∀ (cx : LintContext) (mir : Mir) (bb : Nat) (r : MirLocal) (sp : Span),
      resolveCallSite cx mir bb = some (r, sp) →
      usedLater mir bb r = false →
      mir.source_scope_local_data_set = true →
      cx.snippet_opt sp = none →
      checkBlock cx mir bb = Except.ok (some
        { primary_span := sp, suggestion_span := none, note_span := none
          message := "redundant clone" })) := by
  constructor
  · intro cx mir bb r sp snip dot hres hused hscope hs hd hd32
    exact checkBlock_emit cx mir bb r sp _ hres hused
      (emitFinding_dot cx mir sp snip dot hscope hs hd hd32)
  · intro cx mir bb r sp hres hused hscope hs
    exact checkBlock_emit cx mir bb r sp _ hres hused
      (emitFinding_no_snippet cx mir sp hscope hs)

/-- Claim C10: when the rendered snippet of a confirmed call's span contains
more than one `.`, the separator used for narrowing is the last `.` of the
snippet: the suggestion span starts at that last dot and the note covers
everything before it. -/
theorem last_dot_narrowing (cx : LintContext) (mir : Mir) (bb : Nat) (r : MirLocal)
    (sp : Span) (snip : List Char)
    (hres : resolveCallSite cx mir bb = some (r, sp))
    (hused : usedLater mir bb r = false)
    (hscope : mir.source_scope_local_data_set = true)
    (hs : cx.snippet_opt sp = some snip)
    (hmany : 1 < (snip.filter fun c => c == '.').length)
    (hlen : snip.length ≤ 2 ^ 32) :
    ∃ dot, rfindIdx '.' snip = some dot ∧
      snip[dot]? = some '.' ∧
      (∀ j, dot < j → snip[j]? ≠ some '.') ∧
      checkBlock cx mir bb = Except.ok (some
        { primary_span := sp.withLo (sp.lo + dot)
          suggestion_span := some (sp.withLo (sp.lo + dot))
          note_span := some (sp.withHi (sp.lo + dot))
          message := "redundant clone" }) := by
  have hmem : '.' ∈ snip := by
    rcases hfe : snip.filter (fun c => c == '.') with _ | ⟨c, cs⟩
    · rw [hfe] at hmany; simp at hmany
    · have hc : c ∈ snip.filter (fun c => c == '.') := by
        rw [hfe]; exact List.mem_cons_self c cs
      have := List.of_mem_filter hc
      have hceq : c = '.' := beq_iff_eq.mp this
      subst hceq
      exact List.mem_of_mem_filter hc
  obtain ⟨dot, hd⟩ := rfindIdx_isSome_of_mem '.' snip hmem
  have hlt := rfindIdx_lt_length '.' snip dot hd
  have hd32 : dot < 2 ^ 32 := by omega
  exact ⟨dot, hd, rfindIdx_getElem '.' snip dot hd, rfindIdx_last '.' snip dot hd,
    checkBlock_emit cx mir bb r sp _ hres hused
      (emitFinding_dot cx mir sp snip dot hscope hs hd hd32)⟩

/-- Claim C1: if the resolved original slot is read, in a context other than
a drop or a non-use, by some statement or terminator of a block reachable
after the call, the analysis produces no finding for that call-site
(soundness with respect to liveness). -/
theorem redundant_clone_liveness_sound (cx : LintContext) (mir : Mir) (bb : Nat)
    (r : MirLocal) (sp : Span) (hwf : Mir.wf mir) (hbb : bb < mir.blocks.length)
    (hres : resolveCallSite cx mir bb = some (r, sp))
    (t s : Nat) (hs : s ∈ mirSuccs mir bb) (hreach : Reaches (mirSuccs mir) s t)
    (huse : visit_basic_block_data r (mir.block t) = true) :
    checkBlock cx mir bb = Except.ok none := by
  have hself := resolveCallSite_no_self_loop cx mir bb r sp hres
  have hnoself : bb ∉ mirSuccs mir bb := by
    intro hmem
    have hany : ((mir.block bb).terminator.kind.successors.any fun s => s == bb) = true :=
      List.any_eq_true.mpr ⟨bb, hmem, beq_self_eq_true bb⟩
    rw [hself] at hany
    cases hany
  have hused : usedLater mir bb r = true := by
    by_cases htb : t = bb
    · subst htb
      rcases Relation.ReflTransGen.cases_tail hreach with h1 | ⟨u, hu, hstep⟩
      · rw [← h1] at hs
        exact absurd hs hnoself
      · by_cases hub : u = t
        · subst hub
          exact absurd hstep hnoself
        · have hreach_u : Reaches (mirSuccs mir) t u := Relation.ReflTransGen.head hs hu
          have hmem := reach_mem_rpo_drop mir t u hwf hbb hreach_u hub
          exact usedLater_of_backedge mir t r u hmem hstep
    · have hreach_t : Reaches (mirSuccs mir) bb t := Relation.ReflTransGen.head hs hreach
      have hmem := reach_mem_rpo_drop mir bb t hwf hbb hreach_t htb
      exact usedLater_of_use mir bb r t hmem huse
  exact checkBlock_of_usedLater cx mir bb r sp hres hused

/-- Claim C3: the call-site classifier matches iff the terminator is a call
whose callee resolves to a function definition, with exactly one argument
that is a move of a single local slot, whose static type peels to pointer
depth exactly 1 over an inner type for which the trivially-copyable oracle
answers false; and a call whose single moved-local argument has a trivially
copyable inner type never produces a finding. -/
theorem is_call_with_ref_arg_spec :
    (∀ (cx : LintContext) (mir : Mir) (kind : TerminatorKind) (d : FnName)
        (l : MirLocal) (T : Ty) (res : Option Place),
      is_call_with_ref_arg cx mir kind = some (d, l, T, res) ↔
        ∃ func dest cleanup,
          kind = TerminatorKind.call func [Operand.move (Place.local l)] dest cleanup ∧
          operandTy mir func = Ty.fnDef d ∧
          walk_ptrs_ty_depth (mir.localTy l) = (T, 1) ∧
          cx.is_copy T = false ∧
          res = dest.map (fun p => p.1)) ∧
    (∀ (cx : LintContext) (mir : Mir) (bb : Nat) (func : Operand) (args : List Operand)
        (dest : Option (Place × Nat)) (cleanup : Option Nat) (l : MirLocal),
      (mir.block bb).terminator.kind = TerminatorKind.call func args dest cleanup →
      args = [Operand.move (Place.local l)] →
      cx.is_copy (walk_ptrs_ty_depth (mir.localTy l)).1 = true →
      checkBlock cx mir bb = Except.ok none) := by
  constructor
  · intro cx mir kind d l T res
    constructor
    · intro h
      unfold is_call_with_ref_arg at h
      cases kind with
      | call func args dest cleanup =>
        cases args with
        | nil => dsimp only at h; cases h
        | cons a rest =>
          cases rest with
          | cons b rest2 => dsimp only at h; cases h
          | nil =>
            cases a with
            | copy p => dsimp only at h; cases h
            | constant ty => dsimp only at h; cases h
            | move p =>
              cases p with
              | projection base => dsimp only at h; cases h
              | staticPlace => dsimp only at h; cases h
              | «local» l' =>
                dsimp only at h
                cases hf : operandTy mir func with
                | ref ty => rw [hf] at h; cases h
                | adt nm => rw [hf] at h; cases h
                | otherTy nn => rw [hf] at h; cases h
                | fnDef f =>
                  rw [hf] at h
                  dsimp only at h
                  rcases hw : walk_ptrs_ty_depth (operandTy mir
                    (Operand.move (Place.local l'))) with ⟨T0, n⟩
                  rw [hw] at h
                  dsimp only at h
                  split_ifs at h with hd1 hc
                  simp only [Option.some.injEq, Prod.mk.injEq] at h
                  obtain ⟨rfl, rfl, rfl, rfl⟩ := h
                  subst hd1
                  refine ⟨func, dest, cleanup, rfl, hf, hw, ?_, rfl⟩
                  simp only [Bool.not_eq_true] at hc
                  exact hc
      | drop p tgt u => cases h
      | switchInt ds ts => cases h
      | goto tg => cases h
      | otherTerm ops ss => cases h
    · rintro ⟨func, dest, cleanup, rfl, hfn, hw, hcopy, rfl⟩
      unfold is_call_with_ref_arg
      dsimp only
      rw [hfn]
      dsimp only
      have hw' : walk_ptrs_ty_depth (operandTy mir (Operand.move (Place.local l))) = (T, 1) := hw
      rw [hw']
      dsimp only
      rw [if_pos rfl]
      rw [if_neg (by rw [hcopy]; exact Bool.false_ne_true)]
  · intro cx mir bb func args dest cleanup l hkind hargs hcopy
    have hnone : is_call_with_ref_arg cx mir (mir.block bb).terminator.kind = none := by
      rw [hkind, hargs]
      unfold is_call_with_ref_arg
      dsimp only
      cases hf : operandTy mir func with
      | ref ty => rfl
      | adt nm => rfl
      | otherTy nn => rfl
      | fnDef f =>
        dsimp only
        rcases hw : walk_ptrs_ty_depth (operandTy mir
          (Operand.move (Place.local l))) with ⟨T0, n⟩
        have hT0 : cx.is_copy T0 = true := by
          have hw' : walk_ptrs_ty_depth (mir.localTy l) = (T0, n) := hw
          rw [hw'] at hcopy
          exact hcopy
        dsimp only
        by_cases hd1 : n = 1
        · rw [if_pos hd1, if_pos hT0]
        · rw [if_neg hd1]
    exact checkBlock_of_none cx mir bb (resolveCallSite_of_classifier_none cx mir bb hnone)

/-- Claim C4: the backward origin resolver scans the block's statements in
reverse order and returns the source of the first statement assigning to the
argument slot with the qualifying right-hand-side shape (take-reference in
by-reference mode, copy in by-copy mode); non-qualifying assignments are
passed over, and if no qualifying statement exists the call-site produces no
finding. -/
theorem find_stmt_assigns_to_spec :
    (∀ (tgt : MirLocal) (by_ref : Bool) (stmts : List Statement) (r : MirLocal),
      find_stmt_assigns_to tgt by_ref stmts.reverse = some r ↔
        ∃ i, (∃ st, stmts.reverse[i]? = some st ∧ assignSource tgt by_ref st = some r) ∧
          ∀ (j : Nat) (st' : Statement), j < i → stmts.reverse[j]? = some st' →
            assignSource tgt by_ref st' = none) ∧
    (∀ (cx : LintContext) (mir : Mir) (bb : Nat) (d : FnName) (arg : MirLocal)
        (T : Ty) (res : Option Place),
      is_call_with_ref_arg cx mir (mir.block bb).terminator.kind = some (d, arg, T, res) →
      (∀ st ∈ (mir.block bb).statements, assignSource arg (fromBorrow d T) st = none) →
      checkBlock cx mir bb = Except.ok none) := by
  constructor
  · intro tgt by_ref stmts r
    rw [find_stmt_assigns_to_eq]
    exact findSome?_first_iff (assignSource tgt by_ref) stmts.reverse r
  · intro cx mir bb d arg T res hclass hall
    have hres : resolveCallSite cx mir bb = none := by
      unfold resolveCallSite
      dsimp only
      split_ifs with h1 h2
      · rfl
      · rfl
      · rw [hclass]
        dsimp only
        by_cases hfb : (!fromBorrow d T && !fromDeref (fromBorrow d T) d) = true
        · rw [if_pos hfb]
        · rw [if_neg hfb]
          have hfind : find_stmt_assigns_to arg (fromBorrow d T)
              (mir.block bb).statements.reverse = none := by
            rw [find_stmt_assigns_to_eq]
            exact findSome?_eq_none_of_all _ _ fun a ha => hall a (List.mem_reverse.mp ha)
          rw [hfind]
    exact checkBlock_of_none cx mir bb hres

/-- Claim C5: for a from-dereference call-site the second backward hop
succeeds iff the call's block has exactly one predecessor whose terminator is
a classifier-matching call writing the slot found by the first scan, whose
callee is the dereference-trait method and whose argument points to the owned
path-buffer or owned OS-string type, in which case the referent is found by
the by-reference reverse scan over that predecessor; when the hop fails the
call-site produces no finding. -/
theorem resolveDeref_spec :
    (∀ (cx : LintContext) (mir : Mir) (bb : Nat) (cloned r : MirLocal),
      resolveDeref cx mir bb cloned = some r ↔
        ∃ p pfn parg pargTy,
          predecessors mir bb = [p] ∧
          is_call_with_ref_arg cx mir (mir.block p).terminator.kind =
            some (pfn, parg, pargTy, some (Place.local cloned)) ∧
          match_def_path pfn FnName.deref_trait_method = true ∧
          (match_type pargTy TyName.pathBuf || match_type pargTy TyName.osString) = true ∧
          find_stmt_assigns_to parg true (mir.block p).statements.reverse = some r) ∧
    (∀ (cx : LintContext) (mir : Mir) (bb : Nat) (d : FnName) (arg : MirLocal) (T : Ty)
        (res : Option Place) (cloned : MirLocal),
      is_call_with_ref_arg cx mir (mir.block bb).terminator.kind = some (d, arg, T, res) →
      fromBorrow d T = false →
      find_stmt_assigns_to arg false (mir.block bb).statements.reverse = some cloned →
      resolveDeref cx mir bb cloned = none →
      checkBlock cx mir bb = Except.ok none) := by
  constructor
  · intro cx mir bb cloned r
    constructor
    · intro h
      unfold resolveDeref at h
      cases hp : predecessors mir bb with
      | nil => rw [hp] at h; cases h
      | cons p rest =>
        cases rest with
        | cons q rest2 => rw [hp] at h; dsimp only at h; cases h
        | nil =>
          rw [hp] at h
          dsimp only at h
          cases hc : is_call_with_ref_arg cx mir (mir.block p).terminator.kind with
          | none => rw [hc] at h; cases h
          | some v =>
            obtain ⟨pfn, parg, pargTy, dst⟩ := v
            rw [hc] at h
            cases dst with
            | none => dsimp only at h; cases h
            | some resP =>
              dsimp only at h
              split_ifs at h with hcond
              simp only [Bool.and_eq_true, beq_iff_eq] at hcond
              obtain ⟨⟨hresP, hderef⟩, hty⟩ := hcond
              subst hresP
              exact ⟨p, pfn, parg, pargTy, rfl, hc, hderef, hty, h⟩
    · rintro ⟨p, pfn, parg, pargTy, hp, hc, hderef, hty, hfind⟩
      unfold resolveDeref
      rw [hp]
      dsimp only
      rw [hc]
      dsimp only
      rw [if_pos (by simp [hderef, hty])]
      exact hfind
  · intro cx mir bb d arg T res cloned hclass hfb hfind hderef
    have hres : resolveCallSite cx mir bb = none := by
      unfold resolveCallSite
      dsimp only
      split_ifs with h1 h2
      · rfl
      · rfl
      · rw [hclass]
        dsimp only
        rw [hfb]
        by_cases hfd : fromDeref false d = true
        · rw [if_neg (by simp [hfd])]
          rw [show find_stmt_assigns_to arg false (mir.block bb).statements.reverse
            = some cloned from hfind]
          dsimp only
          rw [if_pos hfd, hderef]
        · rw [if_pos (by simp [Bool.not_eq_true] at hfd ⊢; exact hfd)]
    exact checkBlock_of_none cx mir bb hres

/-- C1 witness: in `exMirUse` the original `_1` is moved again in the block
after the call, so no finding is emitted. -/
theorem redundant_clone_liveness_sound_witness :
    checkBlock exCtx exMirUse 0 = Except.ok none :=
  redundant_clone_liveness_sound exCtx exMirUse 0 1
    { lo := 10, hi := 30, fromExpansion := false }
    (by unfold Mir.wf; decide) (by decide) (by decide) 1 1 (by decide)
    Relation.ReflTransGen.refl (by decide)

/-- C2 witness: a self-looping block is skipped. -/
theorem redundant_clone_loop_conservative_witness :
    checkBlock exCtx exMirLoop 0 = Except.ok none :=
  redundant_clone_loop_conservative exCtx exMirLoop 0 (Or.inl (by decide))

/-- C3 witness: the classifier matches the example clone call, and the
trivially-copyable variant produces no finding. -/
theorem is_call_with_ref_arg_spec_witness :
    is_call_with_ref_arg exCtx exMir (exMir.block 0).terminator.kind =
      some (FnName.clone_trait_method, 2, Ty.adt TyName.stringTy, some (Place.local 3)) ∧
    checkBlock exCtx exMirCopy 0 = Except.ok none :=
  ⟨(is_call_with_ref_arg_spec.1 exCtx exMir (exMir.block 0).terminator.kind
      FnName.clone_trait_method 2 (Ty.adt TyName.stringTy) (some (Place.local 3))).mpr
      ⟨Operand.constant (Ty.fnDef FnName.clone_trait_method), some (Place.local 3, 1), none,
        by decide, by decide, by decide, by decide, by decide⟩,
    is_call_with_ref_arg_spec.2 exCtx exMirCopy 0
      (Operand.constant (Ty.fnDef FnName.clone_trait_method)) [Operand.move (Place.local 2)]
      (some (Place.local 3, 1)) none 2 (by decide) (by decide) (by decide)⟩

/-- C4 witness: the reverse scan finds `_2 = &_1`, and a call block with no
qualifying assignment produces no finding. -/
theorem find_stmt_assigns_to_spec_witness :
    find_stmt_assigns_to 2 true
      [Statement.assign (Place.local 2) (Rvalue.ref (Place.local 1))].reverse = some 1 ∧
    checkBlock exCtx exMirNoAssign 0 = Except.ok none :=
  ⟨(find_stmt_assigns_to_spec.1 2 true
      [Statement.assign (Place.local 2) (Rvalue.ref (Place.local 1))] 1).mpr
      ⟨0, ⟨Statement.assign (Place.local 2) (Rvalue.ref (Place.local 1)), by decide, by decide⟩,
        fun j st' hj _ => absurd hj (by omega)⟩,
    find_stmt_assigns_to_spec.2 exCtx exMirNoAssign 0 FnName.clone_trait_method 2
      (Ty.adt TyName.stringTy) (some (Place.local 3)) (by decide) (by decide)⟩

/-- C5 witness: the two-hop deref resolution succeeds on the Scenario-D body,
and fails (producing no finding) when the predecessor lacks the borrow. -/
theorem resolveDeref_spec_witness :
    resolveDeref exCtx exMirDeref 1 3 = some 1 ∧
    checkBlock exCtx exMirDerefFail 1 = Except.ok none :=
  ⟨(resolveDeref_spec.1 exCtx exMirDeref 1 3 1).mpr
      ⟨0, FnName.deref_trait_method, 2, Ty.adt TyName.pathBuf,
        by decide, by decide, by decide, by decide, by decide⟩,
    resolveDeref_spec.2 exCtx exMirDerefFail 1 FnName.path_to_path_buf 4
      (Ty.adt (TyName.otherName 7)) (some (Place.local 5)) 3
      (by decide) (by decide) (by decide) (by decide)⟩

/-- C6 witness: the whole check runs to completion on the example body. -/
theorem check_fn_total_witness :
    ∃ findings, check_fn exCtxNone exMir = Except.ok findings :=
  check_fn_total exCtxNone exMir rfl (fun _ _ h => nomatch h)

/-- C7 witness: with a snippet the suggestion starts at the dot and the note
covers the receiver; with no snippet the full span is linted. -/
theorem emit_narrowing_spec_witness :
    checkBlock exCtx exMir 0 = Except.ok (some
      { primary_span := { lo := 11, hi := 30, fromExpansion := false }
        suggestion_span := some { lo := 11, hi := 30, fromExpansion := false }
        note_span := some { lo := 10, hi := 11, fromExpansion := false }
        message := "redundant clone" }) ∧
    checkBlock exCtxNone exMir 0 = Except.ok (some
      { primary_span := { lo := 10, hi := 30, fromExpansion := false }
        suggestion_span := none, note_span := none, message := "redundant clone" }) :=
  ⟨emit_narrowing_spec.1 exCtx exMir 0 1 { lo := 10, hi := 30, fromExpansion := false }
      ("x.clone()".toList) 1 (by decide) (by decide) rfl (by decide) (by decide) (by decide),
    emit_narrowing_spec.2 exCtxNone exMir 0 1 { lo := 10, hi := 30, fromExpansion := false }
      (by decide) (by decide) rfl rfl⟩

/-- C8 witness: the macro-expansion variant of the example is skipped. -/
theorem expansion_span_skipped_witness :
    resolveCallSite exCtx exMirExpn 0 = none ∧
      checkBlock exCtx exMirExpn 0 = Except.ok none :=
  expansion_span_skipped exCtx exMirExpn 0 (by decide)

/-- C9 witness: two runs on the example body agree. -/
theorem check_fn_deterministic_witness :
    check_fn exCtx exMir = check_fn exCtx exMir :=
  check_fn_deterministic exCtx exMir (check_fn exCtx exMir) (check_fn exCtx exMir) rfl rfl

/-- C10 witness: with the snippet `a.b.clone()` the narrowing dot is the
last one. -/
theorem last_dot_narrowing_witness :
    ∃ dot, rfindIdx '.' ("a.b.clone()".toList) = some dot ∧
      ("a.b.clone()".toList)[dot]? = some '.' ∧
      (∀ j, dot < j → ("a.b.clone()".toList)[j]? ≠ some '.') ∧
      checkBlock exCtxTwoDots exMir 0 = Except.ok (some
        { primary_span := Span.withLo { lo := 10, hi := 30, fromExpansion := false } (10 + dot)
          suggestion_span :=
            some (Span.withLo { lo := 10, hi := 30, fromExpansion := false } (10 + dot))
          note_span := some (Span.withHi { lo := 10, hi := 30, fromExpansion := false } (10 + dot))
          message := "redundant clone" }) :=
  last_dot_narrowing exCtxTwoDots exMir 0 1 { lo := 10, hi := 30, fromExpansion := false }
    ("a.b.clone()".toList) (by decide) (by decide) rfl (by decide) (by decide) (by decide)
